import Mathlib

/-!
Verification development for the gosw version switcher.

The definitions below are shallow embeddings of the Go sources:
  * `env/version.go`   — version parsing, stringification, comparison
  * `env/releases.go`  — release catalog conversion, loading, selection
  * `goenv/env.go`     — installed-version registry, symlink management
  * `goenv/install.go` — install / uninstall orchestration

Go `int` fields are modelled as `Int` (no arithmetic in the embedded code
can overflow: the sources only compare and format integers; `strconv.Atoi`
overflow is out of range of every input considered here).  Fallible Go
functions returning `error` are modelled with `Option`/`Except`.  The only
error `ParseVersion` ever returns is `ErrVersionSyntax`, so its embedding
returns `Option Version` with `none` standing for that error.
-/

namespace Gosw

/-- `VersionType` from env/version.go: Stable, Beta, RC, Head. -/
inductive VersionType where
  | Stable
  | Beta
  | RC
  | Head
deriving DecidableEq, Repr

/-- `Version` struct from env/version.go. -/
structure Version where
  type : VersionType
  major : Int
  minor : Int
  patch : Int
  release : Int
deriving DecidableEq, Repr

/-- Maximal munch of decimal digits, as matched by `[0-9]+` in the version
regexp (the character following a digit run is never a digit, so greedy
matching is the unique decomposition). -/
def spanDigits : List Char → List Char × List Char
  | [] => ([], [])
  | c :: cs =>
    if c.isDigit then
      let p := spanDigits cs
      (c :: p.1, p.2)
    else ([], c :: cs)

/-- Decimal value of a digit run, as computed by `strconv.Atoi`. -/
def digitsVal (cs : List Char) : Nat :=
  cs.foldl (fun a c => a * 10 + (c.toNat - 48)) 0

/-- `strings.TrimPrefix(s, "go")`. -/
def trimGo : List Char → List Char
  | 'g' :: 'o' :: rest => rest
  | cs => cs

/-- The anchored regexp of env/version.go,
`^(1)\.([0-9]+)((\.([0-9]+))|((beta|rc)([0-9]+)))?$`, together with the
field assembly of `ParseVersion`: after `1.minor` comes either nothing
(Stable, patch 0), `.patch` (Stable), `beta N` (Beta) or `rc N` (RC), and
then the end of the input. -/
def parseCore (cs : List Char) : Option Version :=
  match cs with
  | '1' :: '.' :: rest =>
    if (spanDigits rest).1 = [] then none
    else
      match (spanDigits rest).2 with
      | [] => some ⟨.Stable, 1, (digitsVal (spanDigits rest).1 : Nat), 0, 0⟩
      | '.' :: rest2 =>
        if (spanDigits rest2).1 = [] then none
        else if (spanDigits rest2).2 = [] then
          some ⟨.Stable, 1, (digitsVal (spanDigits rest).1 : Nat),
            (digitsVal (spanDigits rest2).1 : Nat), 0⟩
        else none
      | 'b' :: 'e' :: 't' :: 'a' :: rest2 =>
        if (spanDigits rest2).1 = [] then none
        else if (spanDigits rest2).2 = [] then
          some ⟨.Beta, 1, (digitsVal (spanDigits rest).1 : Nat), 0,
            (digitsVal (spanDigits rest2).1 : Nat)⟩
        else none
      | 'r' :: 'c' :: rest2 =>
        if (spanDigits rest2).1 = [] then none
        else if (spanDigits rest2).2 = [] then
          some ⟨.RC, 1, (digitsVal (spanDigits rest).1 : Nat), 0,
            (digitsVal (spanDigits rest2).1 : Nat)⟩
        else none
      | _ => none
  | _ => none

/-- `ParseVersion` from env/version.go.  `none` models `ErrVersionSyntax`,
the only error the Go function returns. -/
def parseVersion (s : String) : Option Version :=
  if s = "go-head" then some ⟨.Head, 0, 0, 0, 0⟩
  else parseCore (trimGo s.data)

/-- Decimal digit character, as produced by `fmt.Sprintf("%d", _)`. -/
def digitChar (d : Nat) : Char := Char.ofNat (48 + d)

/-- Digit emitter for `natChars`: prepends the decimal digits of `n` to
`acc`, with `fuel ≥ n` guaranteeing enough iterations. -/
def natCharsRec (fuel : Nat) (n : Nat) (acc : List Char) : List Char :=
  match fuel with
  | 0 => acc
  | fuel + 1 => if n = 0 then acc else natCharsRec fuel (n / 10) (digitChar (n % 10) :: acc)

/-- Decimal representation of a natural number (character list). -/
def natChars (n : Nat) : List Char :=
  if n = 0 then ['0'] else natCharsRec n n []

/-- `fmt.Sprintf("%d", n)` for a Go int. -/
def intChars (n : Int) : List Char :=
  if n < 0 then '-' :: natChars n.natAbs else natChars n.toNat

/-- Character sequence of `(*Version).String()` from env/version.go. -/
def versionChars (x : Version) : List Char :=
  match x.type with
  | .Stable =>
    if x.patch > 0 then
      intChars x.major ++ '.' :: intChars x.minor ++ '.' :: intChars x.patch
    else
      intChars x.major ++ '.' :: intChars x.minor
  | .Beta =>
    intChars x.major ++ '.' :: intChars x.minor ++ 'b' :: 'e' :: 't' :: 'a' :: intChars x.release
  | .RC =>
    intChars x.major ++ '.' :: intChars x.minor ++ 'r' :: 'c' :: intChars x.release
  | .Head => "go-head".data

/-- `(*Version).String()` from env/version.go. -/
def versionString (x : Version) : String := ⟨versionChars x⟩

/-- `compareInt` from env/version.go. -/
def compareInt (x y : Int) : Int :=
  if x > y then 1 else if x < y then -1 else 0

/-- The trailing comparison of `CompareVersion` (the code both branches of
the type-difference block fall through to): patch for Stable, release
number otherwise. -/
def compareTail (x y : Version) : Int :=
  if x.type = .Stable then compareInt x.patch y.patch
  else compareInt x.release y.release

/-- `CompareVersion` from env/version.go, with the exact control flow of
the Go function (including the fall-through of the kind-difference block). -/
def compareVersion (x y : Version) : Int :=
  if x.type = .Head ∧ y.type = .Head then 0
  else if x.type = .Head then 1
  else if y.type = .Head then -1
  else if x.major ≠ y.major then compareInt x.major y.major
  else if x.minor ≠ y.minor then compareInt x.minor y.minor
  else if x.type ≠ y.type then
    if x.type = .Stable then 1
    else if x.type = .Beta then -1
    else if y.type = .Stable then -1
    else if y.type = .Beta then 1
    else compareTail x y
  else compareTail x y

/-- `EqualVersion` from env/version.go. -/
def equalVersion (x y : Version) : Bool := compareVersion x y = 0

/-- `remoteFile` from env/releases.go (JSON record of one artifact). -/
structure RemoteFile where
  filename : String
  os : String
  arch : String
  version : String
  sha256 : String
  size : Int
  kind : String
deriving DecidableEq, Repr

/-- `remoteRelease` from env/releases.go. -/
structure RemoteRelease where
  version : String
  stable : Bool
  files : List RemoteFile
deriving DecidableEq, Repr

/-- `Release` from env/releases.go. -/
structure Release where
  version : Version
  stable : Bool
  filename : String
  sha256 : String
  size : Int
deriving DecidableEq, Repr

/-- `targetRelease` from env/releases.go, with `runtime.GOOS` and
`runtime.GOARCH` passed explicitly. -/
def targetRelease (goos goarch : String) (f : RemoteFile) : Bool :=
  if f.os ≠ goos ∨ f.kind ≠ "archive" then false
  else if f.arch ≠ (if goarch = "arm" then "armv6l" else goarch) then false
  else true

/-- `strings.TrimPrefix(s, "go")` on a `String`. -/
def trimGoS (s : String) : String := ⟨trimGo s.data⟩

/-- The `Release` value `convertReleases` appends for a matching file. -/
def mkRelease (r : RemoteRelease) (f : RemoteFile) (v : Version) : Release :=
  ⟨v, r.stable, f.filename, f.sha256, f.size⟩

/-- Inner loop of `convertReleases` over one record's files: keep matching
files, abort the whole conversion if the record's version fails to parse. -/
def convertFiles (goos goarch : String) (r : RemoteRelease) : List RemoteFile → Option (List Release)
  | [] => some []
  | f :: fs =>
    if targetRelease goos goarch f then
      match parseVersion (trimGoS r.version) with
      | none => none
      | some v =>
        match convertFiles goos goarch r fs with
        | none => none
        | some rest => some (mkRelease r f v :: rest)
    else convertFiles goos goarch r fs

/-- Outer loop of `convertReleases` over all records. -/
def convertAll (goos goarch : String) : List RemoteRelease → Option (List Release)
  | [] => some []
  | r :: rs =>
    match convertFiles goos goarch r r.files with
    | none => none
    | some first =>
      match convertAll goos goarch rs with
      | none => none
      | some rest => some (first ++ rest)

/-- Insertion step of the model of `sort.Slice`. -/
def insertLt (lt : α → α → Bool) (a : α) : List α → List α
  | [] => [a]
  | b :: l => if lt a b then a :: b :: l else b :: insertLt lt a l

/-- Model of `sort.Slice` with a strict `less` function (insertion sort;
`sort.Slice` is unspecified on `less`-equal elements, and every claim
below depends on it only through membership or through inputs with no
`less`-equal pairs). -/
def sortLt (lt : α → α → Bool) : List α → List α
  | [] => []
  | a :: l => insertLt lt a (sortLt lt l)

/-- The `less` function `convertReleases` sorts with. -/
def releaseLt (a b : Release) : Bool := compareVersion a.version b.version < 0

/-- `convertReleases` from env/releases.go: flatten matching files and sort
ascending by `CompareVersion`; `none` models the propagated
`ErrVersionSyntax`. -/
def convertReleases (goos goarch : String) (rrs : List RemoteRelease) : Option (List Release) :=
  match convertAll goos goarch rrs with
  | none => none
  | some rls => some (sortLt releaseLt rls)

/-- Errors surfaced by the embedded operations.  Each constructor stands
for one Go error value or message. -/
inductive GoswError where
  /-- `ErrReleasesFileNotDownloaded` ("releases file is not found"). -/
  | notDownloaded
  /-- `ErrVersionSyntax` propagated out of `convertReleases`. -/
  | versionSyntax
  /-- "specified version is not found". -/
  | versionNotFound
  /-- "specified version is already installed". -/
  | alreadyInstalled
  /-- "specified version is not installed". -/
  | notInstalled
  /-- "install target directory already exists". -/
  | targetDirExists
  /-- "unsupported archive" from `getExtractor`. -/
  | unsupportedArchive
  /-- download failure other than 404 (transport error). -/
  | downloadFailed
deriving DecidableEq, Repr

/-- The process-local state the embedded operations act on: the `Env`
fields of goenv/env.go plus the filesystem facts they consult.  `cache`
is the decoded content of the `downloads.json` cache file (`none`: the
file does not exist; JSON decoding itself is out of scope), `mem` is
`env.releases` (`none`: the Go nil slice), `installed` is the
`installedVersions` map as an association list, `dirs` is the set of
existing version directories (paths on which `os.Stat` succeeds), `link`
is the current target of the active symlink, and `cacheFiles` is the set
of archive names present in the download cache directory. -/
structure EnvSt where
  envRoot : String
  verLinkName : String
  goos : String
  goarch : String
  cache : Option (List RemoteRelease)
  mem : Option (List Release)
  installed : List (String × Version)
  dirs : List String
  link : Option String
  cacheFiles : List String
deriving DecidableEq, Repr

/-- `loadReleases` from env/releases.go.  A Go nil slice results when the
converted list is empty, so `mem` stays `none` in that case. -/
def loadReleases (st : EnvSt) : Except GoswError EnvSt :=
  match st.cache with
  | none => .error .notDownloaded
  | some rrs =>
    match convertReleases st.goos st.goarch rrs with
    | none => .error .versionSyntax
    | some rls => .ok { st with mem := if rls = [] then none else some rls }

/-- The load-on-demand check shared by `Releases`, `RecentReleases` and
`FindRelease`: load from the cache file when `env.releases` is nil. -/
def releasesLoaded (st : EnvSt) : Except GoswError (List Release × EnvSt) :=
  match st.mem with
  | some rls => .ok (rls, st)
  | none =>
    match loadReleases st with
    | .error e => .error e
    | .ok st2 => .ok (st2.mem.getD [], st2)

/-- `FindRelease` from env/releases.go: linear scan for the first release
whose version `EqualVersion`s the requested one. -/
def findRelease (st : EnvSt) (v : Version) : Except GoswError (Release × EnvSt) :=
  match releasesLoaded st with
  | .error e => .error e
  | .ok (rls, st2) =>
    match rls.find? (fun r => equalVersion r.version v) with
    | some r => .ok (r, st2)
    | none => .error .versionNotFound

/-- Phase 1 of `selectRecentReleases` (env/releases.go), walking the
catalog backward (the argument list is the reversed catalog): yield the
non-stable entries of the newest unstable (major, minor) line. -/
def selectPhase1 : List Release → Option (Int × Int) → List Release
  | [], _ => []
  | r :: rest, latest =>
    if r.stable then []
    else
      let l := latest.getD (r.version.major, r.version.minor)
      if r.version.major ≠ l.1 ∨ r.version.minor ≠ l.2 then []
      else r :: selectPhase1 rest (some l)

/-- Phase 2 of `selectRecentReleases`, walking the reversed catalog:
group stable entries by (major, minor), stop after `n` completed groups,
yield at most 2 entries per group. -/
def selectPhase2 : List Release → Option (Int × Int) → Int → Int → List Release
  | [], _, _, _ => []
  | r :: rest, latest, n, count =>
    if !r.stable then selectPhase2 rest latest n count
    else
      match latest with
      | none =>
        if n = 0 then []
        else r :: selectPhase2 rest (some (r.version.major, r.version.minor)) n 1
      | some l =>
        if r.version.major ≠ l.1 ∨ r.version.minor ≠ l.2 then
          if n - 1 = 0 then []
          else r :: selectPhase2 rest (some (r.version.major, r.version.minor)) (n - 1) 1
        else
          if count < 2 then r :: selectPhase2 rest latest n (count + 1)
          else selectPhase2 rest latest n (count + 1)

/-- `selectRecentReleases` from env/releases.go: the sequence of yields of
the two-phase backward scan, in yield order. -/
def selectRecentReleases (releases : List Release) (n : Int) : List Release :=
  selectPhase1 releases.reverse none ++ selectPhase2 releases.reverse none n 0

/-- `RecentReleases` from env/releases.go: load on demand, empty catalog
short-circuits to an empty result, otherwise collect
`selectRecentReleases(2)` and reverse it. -/
def recentReleases (st : EnvSt) : Except GoswError (List Release × EnvSt) :=
  match releasesLoaded st with
  | .error e => .error e
  | .ok (rls, st2) =>
    if rls = [] then .ok ([], st2)
    else .ok ((selectRecentReleases rls 2).reverse, st2)

/-- `(*Env).versionGoRoot` from goenv/env.go (`filepath.Join` modelled as
separator concatenation; every path here is already clean). -/
def versionGoRoot (st : EnvSt) (v : Version) : String :=
  st.envRoot ++ "/go" ++ versionString v

/-- `(*Env).linkPath` from goenv/env.go. -/
def linkPath (st : EnvSt) : String := st.envRoot ++ "/" ++ st.verLinkName

/-- `HasVersion` from goenv/env.go: key lookup in the installed map. -/
def hasVersion (st : EnvSt) (v : Version) : Bool :=
  st.installed.any (fun p => p.1 = versionString v)

/-- `makeLink` from goenv/env.go: remove any existing link, then point the
link at the version's directory (the filesystem error paths are external
I/O failures, out of scope). -/
def makeLink (st : EnvSt) (v : Version) : EnvSt :=
  { st with link := some (versionGoRoot st v) }

/-- `os.Stat(env.linkPath())` succeeds iff the link exists and its target
directory exists (Stat follows symlinks). -/
def statLinkOk (st : EnvSt) : Bool :=
  match st.link with
  | none => false
  | some t => st.dirs.contains t

/-- The `less` function `InstalledVersions` sorts with. -/
def versionLt (a b : Version) : Bool := compareVersion a b < 0

/-- `InstalledVersions` from goenv/env.go: the map values sorted ascending
by `CompareVersion` (map iteration order is irrelevant after sorting up to
`CompareVersion` ties). -/
def installedVersionsSorted (st : EnvSt) : List Version :=
  sortLt versionLt (st.installed.map Prod.snd)

/-- `fixBrokenLink` from goenv/env.go: leave a resolving link alone,
otherwise repoint it at the last (greatest) element of the sorted
installed versions, doing nothing if none are installed. -/
def fixBrokenLink (st : EnvSt) : EnvSt :=
  if statLinkOk st then st
  else
    match (installedVersionsSorted st).getLast? with
    | none => st
    | some m => makeLink st m

/-- `Switch` from goenv/env.go (same body in src/unnamed/part_004): note
the guard is `HasVersion`, not its negation. -/
def switchVersion (st : EnvSt) (v : Version) : Except GoswError EnvSt :=
  if hasVersion st v then .error .notInstalled
  else .ok (makeLink st v)

/-- `Uninstall` from goenv/install.go: remove the version directory,
delete the map entry keyed by the canonical string, repair the link. -/
def uninstall (st : EnvSt) (v : Version) : Except GoswError EnvSt :=
  if !hasVersion st v then .error .notInstalled
  else
    let st1 := { st with dirs := st.dirs.filter (fun d => d ≠ versionGoRoot st v) }
    let st2 := { st1 with installed := st1.installed.filter (fun p => p.1 ≠ versionString v) }
    .ok (fixBrokenLink st2)

/-- `strings.HasSuffix`. -/
def strEndsWith (s t : String) : Bool := t.data.isSuffixOf s.data

/-- Success condition of `getExtractor` (env extractor, called from
goenv/install.go): the archive name must have a supported suffix. -/
def getExtractorOk (path : String) : Bool :=
  strEndsWith path ".tar" || strEndsWith path ".tar.gz" || strEndsWith path ".zip"

/-- Tail of `Install` after the download: existing target directory
check, `Mkdir`, extraction (whose error the Go code discards with
`e.extract(goRoot)`), and `fixBrokenLink`. -/
def installDirs (st2 : EnvSt) (v : Version) : Except GoswError EnvSt :=
  if st2.dirs.contains (versionGoRoot st2 v) then .error .targetDirExists
  else .ok (fixBrokenLink { st2 with dirs := versionGoRoot st2 v :: st2.dirs })

/-- `Install` from goenv/install.go.  `dl` is the outcome of the one
network download (performed only when the archive is not already cached);
the body mirrors the Go control flow: `HasVersion` guard, `downloadURL`
(= `FindRelease`), `getExtractor`, cache check and download, then
`installDirs`.  Note that no step touches `installedVersions`. -/
def install (dl : Except GoswError Unit) (st : EnvSt) (v : Version) : Except GoswError EnvSt :=
  if hasVersion st v then .error .alreadyInstalled
  else
    match findRelease st v with
    | .error e => .error e
    | .ok (r, st1) =>
      if !getExtractorOk r.filename then .error .unsupportedArchive
      else if st1.cacheFiles.contains r.filename then installDirs st1 v
      else
        match dl with
        | .error e => .error e
        | .ok () => installDirs { st1 with cacheFiles := r.filename :: st1.cacheFiles } v

end Gosw

namespace Gosw

example : parseVersion "1.16" = some ⟨.Stable, 1, 16, 0, 0⟩ := by decide
example : parseVersion "go-head" = some ⟨.Head, 0, 0, 0, 0⟩ := by decide
example : parseVersion "1.15.10" = some ⟨.Stable, 1, 15, 10, 0⟩ := by decide
example : parseVersion "1.16beta3" = some ⟨.Beta, 1, 16, 0, 3⟩ := by decide
example : parseVersion "1.15rc10" = some ⟨.RC, 1, 15, 0, 10⟩ := by decide
example : parseVersion "1.14.1beta4" = none := by decide
example : parseVersion "1.13.14rc15" = none := by decide
example : versionString ⟨.Stable, 1, 15, 10, 0⟩ = "1.15.10" := by decide
example : versionString ⟨.Beta, 1, 16, 0, 3⟩ = "1.16beta3" := by decide
example : compareVersion ⟨.Stable, 1, 16, 0, 0⟩ ⟨.RC, 1, 16, 0, 1⟩ = 1 := by decide

/-- Stability rank used by the spec's tie-break description:
Stable > ReleaseCandidate > Beta (Head above everything). -/
def stabilityRank : VersionType → Int
  | .Beta => 0
  | .RC => 1
  | .Stable => 2
  | .Head => 3

/-- The kind-appropriate trailing number of the spec's step 4. -/
def trailingNum (x : Version) : Int :=
  if x.type = .Stable then x.patch else x.release

/-- Sort key for versions: Head above everything (all of Head's numeric
fields ignored), otherwise (major, minor, stability rank, trailing
number), compared lexicographically. -/
def vkey (x : Version) : Int × Int × Int × Int × Int :=
  if x.type = .Head then (1, 0, 0, 0, 0)
  else (0, x.major, x.minor, stabilityRank x.type, trailingNum x)

/-- Lexicographic three-way comparison of the 5-tuple keys. -/
def cmp5 (a b : Int × Int × Int × Int × Int) : Int :=
  if a.1 ≠ b.1 then compareInt a.1 b.1
  else if a.2.1 ≠ b.2.1 then compareInt a.2.1 b.2.1
  else if a.2.2.1 ≠ b.2.2.1 then compareInt a.2.2.1 b.2.2.1
  else if a.2.2.2.1 ≠ b.2.2.2.1 then compareInt a.2.2.2.1 b.2.2.2.1
  else compareInt a.2.2.2.2 b.2.2.2.2

theorem compareVersion_eq_cmp5 (x y : Version) : compareVersion x y = cmp5 (vkey x) (vkey y) := by
  obtain ⟨tx, mx, nx, px, rx⟩ := x
  obtain ⟨ty, my, ny, py, ry⟩ := y
  cases tx <;> cases ty <;>
    simp only [compareVersion, compareTail, compareInt, vkey, cmp5, stabilityRank, trailingNum] <;>
    simp <;> split_ifs <;> omega

/-- Strict lexicographic order on the 5-tuple keys, the reference point
for the `cmp5` sign lemmas. -/
def lex5 (a b : Int × Int × Int × Int × Int) : Prop :=
  a.1 < b.1 ∨ (a.1 = b.1 ∧ (a.2.1 < b.2.1 ∨ (a.2.1 = b.2.1 ∧
    (a.2.2.1 < b.2.2.1 ∨ (a.2.2.1 = b.2.2.1 ∧
      (a.2.2.2.1 < b.2.2.2.1 ∨ (a.2.2.2.1 = b.2.2.2.1 ∧ a.2.2.2.2 < b.2.2.2.2)))))))

theorem compareInt_lt_iff (x y : Int) : compareInt x y < 0 ↔ x < y := by
  unfold compareInt; split_ifs <;> omega

theorem compareInt_pos_iff (x y : Int) : 0 < compareInt x y ↔ y < x := by
  unfold compareInt; split_ifs <;> omega

theorem compareInt_eq_iff (x y : Int) : compareInt x y = 0 ↔ x = y := by
  unfold compareInt
  split_ifs <;> first | omega | (simp only [false_iff, true_iff] <;> omega)

theorem compareInt_vals (x y : Int) :
    compareInt x y = -1 ∨ compareInt x y = 0 ∨ compareInt x y = 1 := by
  unfold compareInt; split_ifs <;> omega

theorem cmp5_lt_iff (a b : Int × Int × Int × Int × Int) : cmp5 a b < 0 ↔ lex5 a b := by
  obtain ⟨a1, a2, a3, a4, a5⟩ := a
  obtain ⟨b1, b2, b3, b4, b5⟩ := b
  simp only [cmp5, lex5]
  split_ifs <;> rw [compareInt_lt_iff] <;> omega

theorem cmp5_pos_iff (a b : Int × Int × Int × Int × Int) : 0 < cmp5 a b ↔ lex5 b a := by
  obtain ⟨a1, a2, a3, a4, a5⟩ := a
  obtain ⟨b1, b2, b3, b4, b5⟩ := b
  simp only [cmp5, lex5]
  split_ifs <;> rw [compareInt_pos_iff] <;> omega

theorem cmp5_eq_zero (a b : Int × Int × Int × Int × Int) : cmp5 a b = 0 ↔ a = b := by
  obtain ⟨a1, a2, a3, a4, a5⟩ := a
  obtain ⟨b1, b2, b3, b4, b5⟩ := b
  simp only [cmp5, Prod.mk.injEq]
  split_ifs <;> rw [compareInt_eq_iff] <;> omega

theorem cmp5_vals (a b : Int × Int × Int × Int × Int) :
    cmp5 a b = -1 ∨ cmp5 a b = 0 ∨ cmp5 a b = 1 := by
  simp only [cmp5]
  split_ifs <;> exact compareInt_vals _ _

theorem cmp5_self (a : Int × Int × Int × Int × Int) : cmp5 a a = 0 :=
  (cmp5_eq_zero a a).mpr rfl

theorem cmp5_flip (a b : Int × Int × Int × Int × Int) : cmp5 b a = -(cmp5 a b) := by
  rcases cmp5_vals a b with h | h | h
  · have l : lex5 a b := (cmp5_lt_iff a b).mp (by omega)
    have p : 0 < cmp5 b a := (cmp5_pos_iff b a).mpr l
    rcases cmp5_vals b a with h' | h' | h' <;> omega
  · have e : a = b := (cmp5_eq_zero a b).mp h
    subst e
    omega
  · have l : lex5 b a := (cmp5_pos_iff a b).mp (by omega)
    have p : cmp5 b a < 0 := (cmp5_lt_iff b a).mpr l
    rcases cmp5_vals b a with h' | h' | h' <;> omega

theorem cmp5_trans_lt (a b c : Int × Int × Int × Int × Int)
    (h1 : cmp5 a b < 0) (h2 : cmp5 b c < 0) : cmp5 a c < 0 := by
  rw [cmp5_lt_iff] at h1 h2 ⊢
  obtain ⟨a1, a2, a3, a4, a5⟩ := a
  obtain ⟨b1, b2, b3, b4, b5⟩ := b
  obtain ⟨c1, c2, c3, c4, c5⟩ := c
  simp only [lex5] at h1 h2 ⊢
  omega

theorem compareVersion_self (x : Version) : compareVersion x x = 0 := by
  rw [compareVersion_eq_cmp5]; exact cmp5_self _

theorem compareVersion_flip (x y : Version) : compareVersion y x = -(compareVersion x y) := by
  rw [compareVersion_eq_cmp5, compareVersion_eq_cmp5]; exact cmp5_flip _ _

theorem compareVersion_vals (x y : Version) :
    compareVersion x y = -1 ∨ compareVersion x y = 0 ∨ compareVersion x y = 1 := by
  rw [compareVersion_eq_cmp5]; exact cmp5_vals _ _

theorem compareVersion_trans_lt (x y z : Version)
    (h1 : compareVersion x y < 0) (h2 : compareVersion y z < 0) : compareVersion x z < 0 := by
  rw [compareVersion_eq_cmp5] at h1 h2 ⊢
  exact cmp5_trans_lt _ _ _ h1 h2

theorem compareVersion_eq_zero (x y : Version) :
    compareVersion x y = 0 ↔ vkey x = vkey y := by
  rw [compareVersion_eq_cmp5]; exact cmp5_eq_zero _ _

theorem compareVersion_trans_eq (x y z : Version)
    (h1 : compareVersion x y = 0) (h2 : compareVersion y z = 0) : compareVersion x z = 0 := by
  rw [compareVersion_eq_zero] at h1 h2 ⊢
  exact h1.trans h2

theorem compareVersion_trans_le (x y z : Version)
    (h1 : compareVersion x y ≤ 0) (h2 : compareVersion y z ≤ 0) : compareVersion x z ≤ 0 := by
  rcases lt_or_eq_of_le h1 with h1' | h1'
  · rcases lt_or_eq_of_le h2 with h2' | h2'
    · exact le_of_lt (compareVersion_trans_lt x y z h1' h2')
    · have e : vkey y = vkey z := (compareVersion_eq_zero y z).mp h2'
      rw [compareVersion_eq_cmp5, ← e, ← compareVersion_eq_cmp5]
      exact h1
  · have e : vkey x = vkey y := (compareVersion_eq_zero x y).mp h1'
    rw [compareVersion_eq_cmp5, e, ← compareVersion_eq_cmp5]
    exact h2

/-- The comparison described by the spec (§4.1 Compare, and claim C3):
Head above every non-Head and two Heads equal; then major, then minor;
on a kind tie-break the stability rank Stable > RC > Beta decides; with
equal kinds, Stable compares by patch and Beta/RC by release number. -/
def compareVersionSpec (x y : Version) : Int :=
  if x.type = .Head ∧ y.type = .Head then 0
  else if x.type = .Head then 1
  else if y.type = .Head then -1
  else if x.major ≠ y.major then compareInt x.major y.major
  else if x.minor ≠ y.minor then compareInt x.minor y.minor
  else if x.type ≠ y.type then compareInt (stabilityRank x.type) (stabilityRank y.type)
  else if x.type = .Stable then compareInt x.patch y.patch
  else compareInt x.release y.release

/-- C3: for all Versions x and y, `CompareVersion(x, y)` orders them as the
spec describes: a Head version is strictly greater than every non-Head
version and two Heads compare equal; otherwise comparison is by major then
minor numerically; on equal major/minor with different kinds the stability
rank Stable > ReleaseCandidate > Beta decides; with equal kinds Stable
versions compare by patch and Beta/RC versions by release number. -/
theorem claim_C3_compare_matches_spec :
    ∀ x y : Version, compareVersion x y = compareVersionSpec x y := by
  intro x y
  obtain ⟨tx, mx, nx, px, rx⟩ := x
  obtain ⟨ty, my, ny, py, ry⟩ := y
  cases tx <;> cases ty <;>
    simp only [compareVersion, compareVersionSpec, compareTail, compareInt, stabilityRank] <;>
    simp <;> split_ifs <;> omega

/-- C4: `ParseVersion` fails with `ErrVersionSyntax` (modelled by `none`)
on each of the malformed inputs `"1.16."`, `"1.15.10."`, `"1.16beta"`,
`"1.15xxx10"`, `"1.15..10"`, `"1.2.3.4"`, `"10"` and `"-head"`. -/
theorem claim_C4_parse_syntax_errors :
    parseVersion "1.16." = none ∧
    parseVersion "1.15.10." = none ∧
    parseVersion "1.16beta" = none ∧
    parseVersion "1.15xxx10" = none ∧
    parseVersion "1.15..10" = none ∧
    parseVersion "1.2.3.4" = none ∧
    parseVersion "10" = none ∧
    parseVersion "-head" = none := by
  decide

/-- C2 (code bug): the claim's canonical strings `"1.14.1beta4"` and
`"1.13.14rc15"` are rejected by `ParseVersion` — its regexp allows either
a `.patch` segment or a `beta`/`rc` suffix, never both — although the
repository's own `Test_ParseVersion` expects them to parse (to Beta 1.14
release 4 patch 1, resp. RC 1.13 release 15 patch 14).  For the five
canonical strings the parser does accept, `Parse(String(v)) = v` holds as
claimed. -/
theorem claim_C2_roundtrip_and_reject :
    parseVersion "1.14.1beta4" = none ∧
    parseVersion "1.13.14rc15" = none ∧
    (parseVersion "1.16" = some ⟨.Stable, 1, 16, 0, 0⟩ ∧
      parseVersion (versionString ⟨.Stable, 1, 16, 0, 0⟩) = some ⟨.Stable, 1, 16, 0, 0⟩) ∧
    (parseVersion "1.15.10" = some ⟨.Stable, 1, 15, 10, 0⟩ ∧
      parseVersion (versionString ⟨.Stable, 1, 15, 10, 0⟩) = some ⟨.Stable, 1, 15, 10, 0⟩) ∧
    (parseVersion "1.16beta3" = some ⟨.Beta, 1, 16, 0, 3⟩ ∧
      parseVersion (versionString ⟨.Beta, 1, 16, 0, 3⟩) = some ⟨.Beta, 1, 16, 0, 3⟩) ∧
    (parseVersion "1.15rc10" = some ⟨.RC, 1, 15, 0, 10⟩ ∧
      parseVersion (versionString ⟨.RC, 1, 15, 0, 10⟩) = some ⟨.RC, 1, 15, 0, 10⟩) ∧
    (parseVersion "go-head" = some ⟨.Head, 0, 0, 0, 0⟩ ∧
      parseVersion (versionString ⟨.Head, 0, 0, 0, 0⟩) = some ⟨.Head, 0, 0, 0, 0⟩) := by
  decide

deriving instance DecidableEq for Except

/-- A release of the C1 catalog: major 1, the given kind/minor/patch or
release number, stability flag, and irrelevant artifact metadata. -/
def c1Rel (t : VersionType) (mi p r : Int) (stable : Bool) : Release :=
  ⟨⟨t, 1, mi, p, r⟩, stable, "", "", 0⟩

/-- The loaded catalog of claim C1, ascending by `CompareVersion` (the
order `convertReleases` establishes): stable 1.14.1‥1.14.3 and
1.15.1‥1.15.2, then the unstable 1.16 line. -/
def c1Catalog : List Release :=
  [c1Rel .Stable 14 1 0 true, c1Rel .Stable 14 2 0 true, c1Rel .Stable 14 3 0 true,
   c1Rel .Stable 15 1 0 true, c1Rel .Stable 15 2 0 true,
   c1Rel .Beta 16 0 1 false, c1Rel .Beta 16 0 2 false, c1Rel .RC 16 0 1 false]

/-- An environment with the C1 catalog loaded in memory. -/
def c1Env : EnvSt :=
  ⟨"/usr/local/go", "current", "linux", "amd64", none, some c1Catalog, [], [], none, []⟩

/-- What `RecentReleases` actually returns on the C1 catalog: ascending,
oldest first, the unstable line last. -/
def c1Actual : List Release :=
  [c1Rel .Stable 14 2 0 true, c1Rel .Stable 14 3 0 true,
   c1Rel .Stable 15 1 0 true, c1Rel .Stable 15 2 0 true,
   c1Rel .Beta 16 0 1 false, c1Rel .Beta 16 0 2 false, c1Rel .RC 16 0 1 false]

/-- The sequence claim C1 says `RecentReleases` returns: newest first,
unstable line first. -/
def c1Claimed : List Release :=
  [c1Rel .RC 16 0 1 false, c1Rel .Beta 16 0 2 false, c1Rel .Beta 16 0 1 false,
   c1Rel .Stable 15 2 0 true, c1Rel .Stable 15 1 0 true,
   c1Rel .Stable 14 3 0 true, c1Rel .Stable 14 2 0 true]

/-- C1 counterexample: on the claim's own catalog, `RecentReleases`
returns the seven selected releases in ascending (oldest-first) order —
the exact reverse of the newest-first sequence the claim states — because
the backward catalog scan already yields newest-first and the final
`slices.Reverse` turns that into oldest-first. -/
theorem claim_C1_counterexample :
    recentReleases c1Env = .ok (c1Actual, c1Env) ∧ c1Actual ≠ c1Claimed := by
  decide

/-- C1 (amended): on the C1 catalog, `RecentReleases` returns exactly
1.14.2, 1.14.3, 1.15.1, 1.15.2, 1.16beta1, 1.16beta2, 1.16rc1 — the full
newest unstable line and the two newest patches of each of the two newest
stable lines — in ascending (oldest-first) order, with the unstable-line
entries after the stable groups. -/
theorem claim_C1_recent_selection :
    recentReleases c1Env = .ok (c1Actual, c1Env) := by
  decide

end Gosw

namespace Gosw

theorem fixBrokenLink_installed (st : EnvSt) : (fixBrokenLink st).installed = st.installed := by
  unfold fixBrokenLink makeLink
  split
  · rfl
  · split <;> rfl

theorem fixBrokenLink_dirs (st : EnvSt) : (fixBrokenLink st).dirs = st.dirs := by
  unfold fixBrokenLink makeLink
  split
  · rfl
  · split <;> rfl

theorem loadReleases_ok_mem (st st2 : EnvSt)
    (h : loadReleases st = .ok st2) : ∃ m, st2 = { st with mem := m } := by
  unfold loadReleases at h
  split at h
  · cases h
  · split at h
    · cases h
    · injection h with h'
      exact ⟨_, h'.symm⟩

theorem releasesLoaded_ok_mem (st : EnvSt) (rls : List Release) (st2 : EnvSt)
    (h : releasesLoaded st = .ok (rls, st2)) : ∃ m, st2 = { st with mem := m } := by
  unfold releasesLoaded at h
  split at h
  · injection h with h'
    injection h' with h1 h2
    subst h2
    exact ⟨st.mem, rfl⟩
  · split at h
    · cases h
    · injection h with h'
      injection h' with h1 h2
      subst h2
      exact loadReleases_ok_mem st _ (by assumption)

theorem findRelease_ok_mem (st : EnvSt) (v : Version) (r : Release) (st2 : EnvSt)
    (h : findRelease st v = .ok (r, st2)) : ∃ m, st2 = { st with mem := m } := by
  unfold findRelease at h
  split at h
  · cases h
  · split at h
    · injection h with h'
      injection h' with h1 h2
      subst h2
      exact releasesLoaded_ok_mem st _ _ (by assumption)
    · cases h

/-- C10: `Switch(v)` returns the "specified version is not installed"
error exactly when `HasVersion(v)` is true (the guard is inverted relative
to its message), and when `v` is absent from the registry it repoints the
active symlink at `v`'s version directory. -/
theorem claim_C10_switch_inverted_guard :
    ∀ (st : EnvSt) (v : Version),
      (hasVersion st v = true → switchVersion st v = .error .notInstalled) ∧
      (hasVersion st v = false →
        switchVersion st v = .ok { st with link := some (versionGoRoot st v) }) := by
  intro st v
  constructor <;> intro h <;> simp [switchVersion, makeLink, h]

/-- Shared concrete versions for the closed instantiations below. -/
def v116 : Version := ⟨.Stable, 1, 16, 0, 0⟩

def v115 : Version := ⟨.Stable, 1, 15, 0, 0⟩

/-- A state with 1.16 installed (registry and directory). -/
def c10StIn : EnvSt :=
  ⟨"/usr/local/go", "current", "linux", "amd64", none, none,
   [("1.16", v116)], ["/usr/local/go/go1.16"], none, []⟩

/-- The same state with an empty registry. -/
def c10StOut : EnvSt :=
  ⟨"/usr/local/go", "current", "linux", "amd64", none, none, [], [], none, []⟩

theorem claim_C10_witness :
    switchVersion c10StIn v116 = .error .notInstalled ∧
    switchVersion c10StOut v116 = .ok { c10StOut with link := some (versionGoRoot c10StOut v116) } :=
  ⟨(claim_C10_switch_inverted_guard c10StIn v116).1 (by decide),
   (claim_C10_switch_inverted_guard c10StOut v116).2 (by decide)⟩

end Gosw

namespace Gosw

theorem installDirs_ok_installed (st : EnvSt) (v : Version) (st2 : EnvSt)
    (h : installDirs st v = .ok st2) : st2.installed = st.installed := by
  unfold installDirs at h
  split at h
  · cases h
  · injection h with h'
    subst h'
    rw [fixBrokenLink_installed]

/-- C9 counterexample input: catalog holds 1.16, its archive is already in
the download cache, nothing is installed. -/
def c9St : EnvSt :=
  ⟨"/usr/local/go", "current", "linux", "amd64", none,
   some [⟨v116, true, "go1.16.linux-amd64.tar.gz", "", 0⟩],
   [], [], none, ["go1.16.linux-amd64.tar.gz"]⟩

/-- The state `Install` actually produces from `c9St`: only the version
directory appears; the registry stays empty. -/
def c9StAfter : EnvSt :=
  { c9St with dirs := ["/usr/local/go/go1.16"] }

/-- C9 counterexample: this `Install(1.16)` succeeds, yet afterwards the
installed-version registry still does not contain the key `"1.16"` —
`Install` never inserts into `installedVersions`. -/
theorem claim_C9_counterexample :
    install (.ok ()) c9St v116 = .ok c9StAfter ∧ hasVersion c9StAfter v116 = false := by
  decide

/-- C9 (amended): a successful `Install(v)` leaves the in-memory
installed-version registry unchanged (entries are only created by the
startup directory scan), and a successful `Uninstall(v)` removes exactly
the entry keyed `String(v)`, leaving every other registry entry
unchanged. -/
theorem claim_C9_registry_effects :
    ∀ (dl : Except GoswError Unit) (st : EnvSt) (v : Version) (st2 : EnvSt),
      (install dl st v = .ok st2 → st2.installed = st.installed) ∧
      (uninstall st v = .ok st2 →
        st2.installed = st.installed.filter (fun p => p.1 ≠ versionString v)) := by
  intro dl st v st2
  constructor
  · intro h
    unfold install at h
    split at h
    · cases h
    · split at h
      · cases h
      · split at h
        · cases h
        · obtain ⟨m, hm⟩ := findRelease_ok_mem st v _ _ (by assumption)
          subst hm
          split at h
          · rw [installDirs_ok_installed _ _ _ h]
          · split at h
            · cases h
            · rw [installDirs_ok_installed _ _ _ h]
  · intro h
    unfold uninstall at h
    split at h
    · cases h
    · injection h with h'
      subst h'
      rw [fixBrokenLink_installed]

/-- C9 witness input for the uninstall half: 1.15 and 1.16 installed, the
link resolving to 1.15. -/
def c9StU : EnvSt :=
  ⟨"/usr/local/go", "current", "linux", "amd64", none, none,
   [("1.16", v116), ("1.15", v115)],
   ["/usr/local/go/go1.16", "/usr/local/go/go1.15"],
   some "/usr/local/go/go1.15", []⟩

/-- What `Uninstall(1.16)` produces from `c9StU`. -/
def c9StUAfter : EnvSt :=
  { c9StU with
    installed := [("1.15", v115)],
    dirs := ["/usr/local/go/go1.15"] }

theorem claim_C9_witness :
    c9StAfter.installed = c9St.installed ∧
    c9StUAfter.installed = c9StU.installed.filter (fun p => p.1 ≠ versionString v116) :=
  ⟨(claim_C9_registry_effects (.ok ()) c9St v116 c9StAfter).1 (by decide),
   (claim_C9_registry_effects (.ok ()) c9StU v116 c9StUAfter).2 (by decide)⟩

end Gosw

namespace Gosw

/-- C7: `FindRelease` with no catalog in memory and no cache file fails
with `ErrReleasesFileNotDownloaded` (the load path performs no network
fetch — only `UpdateDownloadList` does); with a catalog in memory it
returns a release whose version `EqualVersion`s the requested one when one
exists, and fails with "specified version is not found" otherwise. -/
theorem claim_C7_find_release :
    ∀ (st : EnvSt) (v : Version),
      (st.mem = none → st.cache = none → findRelease st v = .error .notDownloaded) ∧
      (∀ rls, st.mem = some rls →
        ((∃ r ∈ rls, equalVersion r.version v = true) →
          ∃ r, findRelease st v = .ok (r, st) ∧ r ∈ rls ∧ equalVersion r.version v = true) ∧
        ((∀ r ∈ rls, equalVersion r.version v = false) →
          findRelease st v = .error .versionNotFound)) := by
  intro st v
  refine ⟨?_, ?_⟩
  · intro h1 h2
    simp [findRelease, releasesLoaded, loadReleases, h1, h2]
  · intro rls hm
    constructor
    · rintro ⟨r, hr, he⟩
      have hs : (rls.find? (fun r => equalVersion r.version v)).isSome :=
        List.find?_isSome.mpr ⟨r, hr, he⟩
      obtain ⟨r2, hr2⟩ := Option.isSome_iff_exists.mp hs
      refine ⟨r2, ?_, List.mem_of_find?_eq_some hr2, by simpa using List.find?_some hr2⟩
      simp [findRelease, releasesLoaded, hm, hr2]
    · intro hall
      have hn : rls.find? (fun r => equalVersion r.version v) = none :=
        List.find?_eq_none.mpr fun x hx => by simp [hall x hx]
      simp [findRelease, releasesLoaded, hm, hn]

/-- A state with neither an in-memory catalog nor a cache file. -/
def c7StBare : EnvSt :=
  ⟨"/usr/local/go", "current", "linux", "amd64", none, none, [], [], none, []⟩

/-- A state whose in-memory catalog holds exactly the 1.16 release. -/
def c7StLoaded : EnvSt :=
  ⟨"/usr/local/go", "current", "linux", "amd64", none,
   some [⟨v116, true, "go1.16.linux-amd64.tar.gz", "", 0⟩], [], [], none, []⟩

theorem claim_C7_witness :
    findRelease c7StBare v116 = .error .notDownloaded ∧
    (∃ r, findRelease c7StLoaded v116 = .ok (r, c7StLoaded) ∧
      r ∈ [(⟨v116, true, "go1.16.linux-amd64.tar.gz", "", 0⟩ : Release)] ∧
      equalVersion r.version v116 = true) ∧
    findRelease c7StLoaded v115 = .error .versionNotFound :=
  ⟨(claim_C7_find_release c7StBare v116).1 rfl rfl,
   ((claim_C7_find_release c7StLoaded v116).2 _ rfl).1
     (by decide :
       ∃ r ∈ [(⟨v116, true, "go1.16.linux-amd64.tar.gz", "", 0⟩ : Release)],
         equalVersion r.version v116 = true),
   ((claim_C7_find_release c7StLoaded v115).2 _ rfl).2 (by decide)⟩

end Gosw

namespace Gosw

theorem mem_insertLt {α : Type} (lt : α → α → Bool) (x a : α) (l : List α) :
    a ∈ insertLt lt x l ↔ a = x ∨ a ∈ l := by
  induction l with
  | nil => simp [insertLt]
  | cons b t ih =>
    simp only [insertLt]
    split <;> simp only [List.mem_cons, ih] <;> tauto

theorem mem_sortLt {α : Type} (lt : α → α → Bool) (a : α) (l : List α) :
    a ∈ sortLt lt l ↔ a ∈ l := by
  induction l with
  | nil => simp [sortLt]
  | cons b t ih => simp [sortLt, mem_insertLt, ih]

theorem convertFiles_some_mem (goos goarch : String) (r : RemoteRelease) :
    ∀ (fs : List RemoteFile) (out : List Release), convertFiles goos goarch r fs = some out →
      ∀ rl ∈ out, ∃ f ∈ fs, targetRelease goos goarch f = true ∧
        parseVersion (trimGoS r.version) = some rl.version ∧ rl = mkRelease r f rl.version := by
  intro fs
  induction fs with
  | nil =>
    intro out h rl hrl
    simp only [convertFiles, Option.some.injEq] at h
    subst h
    simp at hrl
  | cons f ft ih =>
    intro out h rl hrl
    simp only [convertFiles] at h
    by_cases htgt : targetRelease goos goarch f = true
    · rw [if_pos htgt] at h
      cases hv : parseVersion (trimGoS r.version) with
      | none => rw [hv] at h; cases h
      | some v =>
        rw [hv] at h
        cases hrest : convertFiles goos goarch r ft with
        | none => rw [hrest] at h; cases h
        | some rest =>
          rw [hrest] at h
          injection h with h'
          subst h'
          rcases List.mem_cons.mp hrl with hEq | hMem
          · subst hEq
            exact ⟨f, List.mem_cons_self f ft, htgt, by simp [mkRelease], rfl⟩
          · obtain ⟨f2, hf2, h1, h2, h3⟩ := ih rest hrest rl hMem
            exact ⟨f2, List.mem_cons_of_mem f hf2, h1, hv ▸ h2, h3⟩
    · rw [if_neg htgt] at h
      obtain ⟨f2, hf2, h1, h2, h3⟩ := ih out h rl hrl
      exact ⟨f2, List.mem_cons_of_mem f hf2, h1, h2, h3⟩

theorem convertAll_some_mem (goos goarch : String) :
    ∀ (rrs : List RemoteRelease) (out : List Release), convertAll goos goarch rrs = some out →
      ∀ rl ∈ out, ∃ r ∈ rrs, ∃ f ∈ r.files, targetRelease goos goarch f = true ∧
        parseVersion (trimGoS r.version) = some rl.version ∧ rl = mkRelease r f rl.version := by
  intro rrs
  induction rrs with
  | nil =>
    intro out h rl hrl
    simp only [convertAll, Option.some.injEq] at h
    subst h
    simp at hrl
  | cons r rt ih =>
    intro out h rl hrl
    simp only [convertAll] at h
    cases hfirst : convertFiles goos goarch r r.files with
    | none => rw [hfirst] at h; cases h
    | some first =>
      rw [hfirst] at h
      cases hrest : convertAll goos goarch rt with
      | none => rw [hrest] at h; cases h
      | some rest =>
        rw [hrest] at h
        injection h with h'
        subst h'
        rcases List.mem_append.mp hrl with hL | hR
        · obtain ⟨f, hf, h1, h2, h3⟩ := convertFiles_some_mem goos goarch r r.files first hfirst rl hL
          exact ⟨r, List.mem_cons_self r rt, f, hf, h1, h2, h3⟩
        · obtain ⟨q, hq, f, hf, h1, h2, h3⟩ := ih rest hrest rl hR
          exact ⟨q, List.mem_cons_of_mem r hq, f, hf, h1, h2, h3⟩

theorem convertFiles_bad_none (goos goarch : String) (r : RemoteRelease) (fs : List RemoteFile)
    (h : ∃ f ∈ fs, targetRelease goos goarch f = true ∧ parseVersion (trimGoS r.version) = none) :
    convertFiles goos goarch r fs = none := by
  induction fs with
  | nil => simp at h
  | cons f ft ih =>
    obtain ⟨g, hg, ht, hp⟩ := h
    simp only [convertFiles]
    by_cases hf : targetRelease goos goarch f = true
    · rw [if_pos hf, hp]
    · rw [if_neg hf]
      rcases List.mem_cons.mp hg with hEq | hgt
      · exact absurd (hEq ▸ ht) hf
      · exact ih ⟨g, hgt, ht, hp⟩

theorem convertAll_bad_none (goos goarch : String) (rrs : List RemoteRelease)
    (h : ∃ r ∈ rrs, ∃ f ∈ r.files, targetRelease goos goarch f = true ∧
      parseVersion (trimGoS r.version) = none) :
    convertAll goos goarch rrs = none := by
  induction rrs with
  | nil => simp at h
  | cons r rt ih =>
    obtain ⟨q, hq, hbad⟩ := h
    simp only [convertAll]
    rcases List.mem_cons.mp hq with hEq | hqt
    · subst hEq
      rw [convertFiles_bad_none goos goarch q q.files hbad]
    · cases hcf : convertFiles goos goarch r r.files with
      | none => rfl
      | some out => rw [ih ⟨q, hqt, hbad⟩]

/-- C6: during catalog conversion, every retained release originates from
a file entry matching the current OS/architecture with kind "archive"
(records whose file entries do not match are excluded); a matching record
whose version text fails to parse aborts the whole conversion with the
syntax error and yields no catalog; architecture "arm" is normalized to
"armv6l" before matching. -/
theorem claim_C6_convert_filter_and_abort :
    ∀ (goos goarch : String) (rrs : List RemoteRelease),
      (∀ rls, convertReleases goos goarch rrs = some rls →
        ∀ rl ∈ rls, ∃ r ∈ rrs, ∃ f ∈ r.files,
          targetRelease goos goarch f = true ∧
          parseVersion (trimGoS r.version) = some rl.version ∧
          rl = mkRelease r f rl.version) ∧
      ((∃ r ∈ rrs, ∃ f ∈ r.files, targetRelease goos goarch f = true ∧
          parseVersion (trimGoS r.version) = none) →
        convertReleases goos goarch rrs = none) ∧
      (∀ f, targetRelease goos "arm" f = true ↔
        (f.os = goos ∧ f.kind = "archive" ∧ f.arch = "armv6l")) := by
  intro goos goarch rrs
  refine ⟨?_, ?_, ?_⟩
  · intro rls h rl hrl
    unfold convertReleases at h
    cases hout : convertAll goos goarch rrs with
    | none => rw [hout] at h; cases h
    | some out =>
      rw [hout] at h
      injection h with h'
      subst h'
      exact convertAll_some_mem goos goarch rrs out hout rl ((mem_sortLt releaseLt rl out).mp hrl)
  · intro hbad
    unfold convertReleases
    rw [convertAll_bad_none goos goarch rrs hbad]
  · intro f
    constructor
    · intro h
      simp only [targetRelease] at h
      split_ifs at h with h1 h2
      push_neg at h1 h2
      exact ⟨h1.1, h1.2, by simpa using h2⟩
    · rintro ⟨ho, hk, ha⟩
      simp [targetRelease, ho, hk, ha]

/-- C6 witness artifacts: one matching armv6l archive, one non-matching
Windows file, one record with an unparsable version text. -/
def c6FileGood : RemoteFile :=
  ⟨"go1.16.linux-armv6l.tar.gz", "linux", "armv6l", "go1.16", "", 0, "archive"⟩

def c6FileBad : RemoteFile :=
  ⟨"go1.16.windows-amd64.zip", "windows", "amd64", "go1.16", "", 0, "archive"⟩

def c6RR : RemoteRelease := ⟨"go1.16", true, [c6FileBad, c6FileGood]⟩

def c6RRBad : RemoteRelease := ⟨"gobogus", true, [c6FileGood]⟩

def c6Out : Release := ⟨⟨.Stable, 1, 16, 0, 0⟩, true, "go1.16.linux-armv6l.tar.gz", "", 0⟩

theorem claim_C6_witness :
    (∃ r ∈ [c6RR], ∃ f ∈ r.files, targetRelease "linux" "arm" f = true ∧
      parseVersion (trimGoS r.version) = some c6Out.version ∧
      c6Out = mkRelease r f c6Out.version) ∧
    convertReleases "linux" "arm" [c6RRBad] = none ∧
    targetRelease "linux" "arm" c6FileGood = true :=
  ⟨(claim_C6_convert_filter_and_abort "linux" "arm" [c6RR]).1 [c6Out] (by decide) c6Out
    (by decide),
   (claim_C6_convert_filter_and_abort "linux" "arm" [c6RRBad]).2.1
    (by decide :
      ∃ r ∈ [c6RRBad], ∃ f ∈ r.files, targetRelease "linux" "arm" f = true ∧
        parseVersion (trimGoS r.version) = none),
   ((claim_C6_convert_filter_and_abort "linux" "arm" []).2.2 c6FileGood).mpr (by decide)⟩

end Gosw

namespace Gosw

theorem compareVersion_trans_lt_le (x y z : Version)
    (h1 : compareVersion x y < 0) (h2 : compareVersion y z ≤ 0) : compareVersion x z < 0 := by
  rcases lt_or_eq_of_le h2 with h2' | h2'
  · exact compareVersion_trans_lt x y z h1 h2'
  · have e : vkey y = vkey z := (compareVersion_eq_zero y z).mp h2'
    rw [compareVersion_eq_cmp5, ← e, ← compareVersion_eq_cmp5]
    exact h1

theorem pairwise_insertLt (x : Version) (l : List Version)
    (hl : l.Pairwise (fun a b => compareVersion a b ≤ 0)) :
    (insertLt versionLt x l).Pairwise (fun a b => compareVersion a b ≤ 0) := by
  induction l with
  | nil => simp [insertLt]
  | cons b t ih =>
    rcases List.pairwise_cons.mp hl with ⟨hb, ht⟩
    simp only [insertLt]
    split
    · rename_i hlt
      have hxb : compareVersion x b < 0 := by simpa [versionLt] using hlt
      refine List.pairwise_cons.mpr ⟨?_, hl⟩
      intro c hc
      rcases List.mem_cons.mp hc with hEq | hct
      · exact hEq ▸ le_of_lt hxb
      · exact le_of_lt (compareVersion_trans_lt_le x b c hxb (hb c hct))
    · rename_i hnlt
      have hxb : ¬(compareVersion x b < 0) := by simpa [versionLt] using hnlt
      have hflip := compareVersion_flip x b
      refine List.pairwise_cons.mpr ⟨?_, ih ht⟩
      intro c hc
      rcases (mem_insertLt versionLt x c t).mp hc with hEq | hct
      · subst hEq
        omega
      · exact hb c hct

theorem pairwise_sortLt (l : List Version) :
    (sortLt versionLt l).Pairwise (fun a b => compareVersion a b ≤ 0) := by
  induction l with
  | nil => simp [sortLt]
  | cons x t ih => exact pairwise_insertLt x _ ih

theorem getLast_ge :
    ∀ (l : List Version) (m : Version),
      l.Pairwise (fun a b => compareVersion a b ≤ 0) → l.getLast? = some m →
      ∀ x ∈ l, compareVersion x m ≤ 0 := by
  intro l
  induction l with
  | nil => intro m hp hlast x hx; simp at hx
  | cons a t ih =>
    intro m hp hlast x hx
    cases t with
    | nil =>
      simp only [List.getLast?_singleton, Option.some.injEq] at hlast
      rcases List.mem_singleton.mp hx with rfl
      rw [hlast, compareVersion_self]
    | cons b t2 =>
      have hlast2 : (b :: t2).getLast? = some m := by
        simpa [List.getLast?_cons_cons] using hlast
      rcases List.pairwise_cons.mp hp with ⟨ha, hp2⟩
      rcases List.mem_cons.mp hx with hEq | hxt
      · exact hEq ▸ ha m (List.mem_of_mem_getLast? hlast2)
      · exact ih m hp2 hlast2 x hxt

/-- The consistency the on-disk layout guarantees for the in-memory
registry: every entry is keyed by its version's canonical string and its
version directory exists. -/
def registryConsistent (st : EnvSt) : Prop :=
  ∀ p ∈ st.installed, p.1 = versionString p.2 ∧ versionGoRoot st p.2 ∈ st.dirs

instance (st : EnvSt) : Decidable (registryConsistent st) := by
  unfold registryConsistent
  infer_instance

theorem versionGoRoot_inj (st : EnvSt) (a b : Version)
    (h : versionGoRoot st a = versionGoRoot st b) : versionString a = versionString b := by
  unfold versionGoRoot at h
  have hd := congrArg String.data h
  simp only [String.data_append, List.append_assoc] at hd
  have h2 := List.append_cancel_left (List.append_cancel_left hd)
  exact congrArg String.mk h2

theorem fixBrokenLink_resolves (s : EnvSt)
    (hc : ∀ p ∈ s.installed, p.1 = versionString p.2 ∧ versionGoRoot s p.2 ∈ s.dirs)
    (hne : s.installed ≠ []) :
    ∃ t, (fixBrokenLink s).link = some t ∧ t ∈ (fixBrokenLink s).dirs := by
  by_cases h : statLinkOk s = true
  · rw [show fixBrokenLink s = s by simp [fixBrokenLink, h]]
    unfold statLinkOk at h
    cases hl : s.link with
    | none => rw [hl] at h; cases h
    | some t =>
      rw [hl] at h
      exact ⟨t, rfl, by simpa using h⟩
  · have hfalse : statLinkOk s = false := by simpa using h
    cases hms : (installedVersionsSorted s).getLast? with
    | none =>
      exfalso
      have hnil : installedVersionsSorted s = [] := List.getLast?_eq_none_iff.mp hms
      have hmapne : s.installed.map Prod.snd ≠ [] := by
        intro hmap
        exact hne (List.map_eq_nil_iff.mp hmap)
      obtain ⟨x, hx⟩ := List.exists_mem_of_ne_nil _ hmapne
      have hxs : x ∈ installedVersionsSorted s := by
        unfold installedVersionsSorted
        exact (mem_sortLt versionLt x _).mpr hx
      rw [hnil] at hxs
      simp at hxs
    | some m =>
      have hfix : fixBrokenLink s = makeLink s m := by
        simp [fixBrokenLink, hfalse, hms]
      have hmem : m ∈ installedVersionsSorted s := List.mem_of_mem_getLast? hms
      rw [installedVersionsSorted] at hmem
      have hmem2 := (mem_sortLt versionLt m _).mp hmem
      obtain ⟨p, hp, hpm⟩ := List.mem_map.mp hmem2
      have hroot : versionGoRoot s m ∈ s.dirs := hpm ▸ (hc p hp).2
      exact ⟨versionGoRoot s m, by rw [hfix]; rfl, by rw [hfix]; exact hroot⟩

/-- C8: `fixBrokenLink` leaves a resolving link untouched; when the link
does not resolve and at least one version is installed, it repoints the
link at the maximum installed version under `CompareVersion`; and after a
successful `Uninstall` on a consistent registry with at least one version
remaining, the link points at an existing directory. -/
theorem claim_C8_link_repair :
    ∀ st : EnvSt,
      (statLinkOk st = true → fixBrokenLink st = st) ∧
      (statLinkOk st = false → ∀ m, (installedVersionsSorted st).getLast? = some m →
        fixBrokenLink st = makeLink st m ∧ m ∈ st.installed.map Prod.snd ∧
        ∀ w ∈ st.installed.map Prod.snd, compareVersion w m ≤ 0) ∧
      (∀ v st2, registryConsistent st → uninstall st v = .ok st2 → st2.installed ≠ [] →
        ∃ t, st2.link = some t ∧ t ∈ st2.dirs) := by
  intro st
  have repair : statLinkOk st = false → ∀ m, (installedVersionsSorted st).getLast? = some m →
      fixBrokenLink st = makeLink st m ∧ m ∈ st.installed.map Prod.snd ∧
      ∀ w ∈ st.installed.map Prod.snd, compareVersion w m ≤ 0 := by
    intro h m hm
    refine ⟨by simp [fixBrokenLink, h, hm], ?_, ?_⟩
    · exact (mem_sortLt versionLt m _).mp (List.mem_of_mem_getLast? hm)
    · intro w hw
      exact getLast_ge _ m (pairwise_sortLt _) hm w ((mem_sortLt versionLt w _).mpr hw)
  refine ⟨fun h => by simp [fixBrokenLink, h], repair, ?_⟩
  intro v st2 hcons h hne
  unfold uninstall at h
  split at h
  · cases h
  · injection h with h'
    subst h'
    rw [fixBrokenLink_installed] at hne
    apply fixBrokenLink_resolves
    · intro p hp
      have hpf := List.mem_filter.mp hp
      have hkey : p.1 ≠ versionString v := by simpa using hpf.2
      have hc := hcons p hpf.1
      refine ⟨hc.1, List.mem_filter.mpr ⟨hc.2, ?_⟩⟩
      simp only [decide_eq_true_eq]
      intro heq
      exact hkey (hc.1.symm ▸ versionGoRoot_inj st _ _ heq)
    · exact hne

end Gosw

namespace Gosw

/-- C8 witness states: a resolving link, a dangling link, and an
uninstall that breaks the link. -/
def c8StOk : EnvSt :=
  ⟨"/r", "current", "linux", "amd64", none, none,
   [("1.15", v115)], ["/r/go1.15"], some "/r/go1.15", []⟩

def c8StBroken : EnvSt :=
  ⟨"/r", "current", "linux", "amd64", none, none,
   [("1.15", v115), ("1.16", v116)], ["/r/go1.15", "/r/go1.16"], some "/r/goX", []⟩

def c8StC : EnvSt :=
  ⟨"/r", "current", "linux", "amd64", none, none,
   [("1.15", v115), ("1.16", v116)], ["/r/go1.15", "/r/go1.16"], some "/r/go1.16", []⟩

/-- The state `Uninstall(1.16)` actually produces from `c8StC`: the link
was left dangling by the directory removal and is repaired to 1.15. -/
def c8StCAfter : EnvSt :=
  { c8StC with
    installed := [("1.15", v115)],
    dirs := ["/r/go1.15"],
    link := some "/r/go1.15" }

theorem claim_C8_witness :
    fixBrokenLink c8StOk = c8StOk ∧
    (fixBrokenLink c8StBroken = makeLink c8StBroken v116 ∧
      v116 ∈ c8StBroken.installed.map Prod.snd ∧
      ∀ w ∈ c8StBroken.installed.map Prod.snd, compareVersion w v116 ≤ 0) ∧
    (∃ t, c8StCAfter.link = some t ∧ t ∈ c8StCAfter.dirs) :=
  ⟨(claim_C8_link_repair c8StOk).1 (by decide),
   (claim_C8_link_repair c8StBroken).2.1 (by decide) v116 (by decide),
   (claim_C8_link_repair c8StC).2.2 v116 c8StCAfter (by decide) (by decide) (by decide)⟩

end Gosw

namespace Gosw

theorem digitChar_isDigit (d : Nat) (h : d < 10) : (digitChar d).isDigit = true := by
  interval_cases d <;> decide

theorem digitChar_inj (a b : Nat) (ha : a < 10) (hb : b < 10)
    (h : digitChar a = digitChar b) : a = b := by
  interval_cases a <;> interval_cases b <;> revert h <;> decide

theorem natCharsRec_eq (fuel : Nat) :
    ∀ (n : Nat) (acc : List Char), n ≤ fuel →
      natCharsRec fuel n acc = ((Nat.digits 10 n).reverse.map digitChar) ++ acc := by
  induction fuel with
  | zero =>
    intro n acc h
    have hz : n = 0 := Nat.le_zero.mp h
    subst hz
    simp [natCharsRec]
  | succ fuel ih =>
    intro n acc h
    by_cases hn : n = 0
    · subst hn
      simp [natCharsRec]
    · have hstep : natCharsRec (fuel + 1) n acc
          = natCharsRec fuel (n / 10) (digitChar (n % 10) :: acc) := by
        simp [natCharsRec, hn]
      have hdivle : n / 10 ≤ fuel := by
        have := Nat.div_lt_self (Nat.pos_of_ne_zero hn) (by norm_num : 1 < 10)
        omega
      rw [hstep, ih (n / 10) _ hdivle,
        Nat.digits_def' (by norm_num : 1 < 10) (Nat.pos_of_ne_zero hn)]
      simp

theorem natChars_eq (n : Nat) :
    natChars n = if n = 0 then ['0'] else (Nat.digits 10 n).reverse.map digitChar := by
  unfold natChars
  split
  · rfl
  · rw [natCharsRec_eq n n [] le_rfl]
    simp

theorem natChars_digits (n : Nat) : ∀ c ∈ natChars n, c.isDigit = true := by
  rw [natChars_eq]
  split
  · intro c hc
    rcases List.mem_singleton.mp hc with rfl
    decide
  · intro c hc
    rw [List.mem_map] at hc
    obtain ⟨d, hd, hdc⟩ := hc
    rw [List.mem_reverse] at hd
    exact hdc ▸ digitChar_isDigit d (Nat.digits_lt_base (by norm_num) hd)

theorem natChars_ne_nil (n : Nat) : natChars n ≠ [] := by
  rw [natChars_eq]
  split
  · simp
  · rename_i hn
    simp only [ne_eq, List.map_eq_nil_iff, List.reverse_eq_nil_iff]
    exact fun h => hn (Nat.digits_eq_nil_iff_eq_zero.mp h)

theorem map_digitChar_inj :
    ∀ (l1 l2 : List Nat), (∀ d ∈ l1, d < 10) → (∀ d ∈ l2, d < 10) →
      l1.map digitChar = l2.map digitChar → l1 = l2 := by
  intro l1
  induction l1 with
  | nil =>
    intro l2 h1 h2 h
    cases l2 with
    | nil => rfl
    | cons b bs => simp at h
  | cons a as ih =>
    intro l2 h1 h2 h
    cases l2 with
    | nil => simp at h
    | cons b bs =>
      simp only [List.map_cons, List.cons.injEq] at h
      have ha : a = b :=
        digitChar_inj a b (h1 a (List.mem_cons_self a as)) (h2 b (List.mem_cons_self b bs)) h.1
      have hrest : as = bs :=
        ih bs (fun d hd => h1 d (List.mem_cons_of_mem a hd))
          (fun d hd => h2 d (List.mem_cons_of_mem b hd)) h.2
      rw [ha, hrest]

theorem natChars_zero_ne (b : Nat) (hb : b ≠ 0) : natChars b ≠ ['0'] := by
  rw [natChars_eq, if_neg hb]
  intro h
  have hlen := congrArg List.length h
  simp at hlen
  obtain ⟨d, hd⟩ := List.length_eq_one.mp hlen
  rw [hd] at h
  simp at h
  have hd10 : d < 10 :=
    Nat.digits_lt_base (by norm_num) (by rw [hd]; exact List.mem_singleton_self d)
  have hd0 : d = 0 := digitChar_inj d 0 hd10 (by norm_num) (by rw [h]; rfl)
  have hval := Nat.ofDigits_digits 10 b
  rw [hd, hd0] at hval
  simp [Nat.ofDigits] at hval
  exact hb hval.symm

theorem natChars_inj (a b : Nat) (h : natChars a = natChars b) : a = b := by
  by_cases ha : a = 0 <;> by_cases hb : b = 0
  · rw [ha, hb]
  · exfalso
    apply natChars_zero_ne b hb
    rw [← h, ha]
    decide
  · exfalso
    apply natChars_zero_ne a ha
    rw [h, hb]
    decide
  · rw [natChars_eq, natChars_eq, if_neg ha, if_neg hb] at h
    have hdigits : (Nat.digits 10 a).reverse = (Nat.digits 10 b).reverse :=
      map_digitChar_inj _ _
        (fun d hd => Nat.digits_lt_base (by norm_num) (List.mem_reverse.mp hd))
        (fun d hd => Nat.digits_lt_base (by norm_num) (List.mem_reverse.mp hd)) h
    have hsame : Nat.digits 10 a = Nat.digits 10 b := by
      have := congrArg List.reverse hdigits
      simpa using this
    calc a = Nat.ofDigits 10 (Nat.digits 10 a) := (Nat.ofDigits_digits 10 a).symm
      _ = Nat.ofDigits 10 (Nat.digits 10 b) := by rw [hsame]
      _ = b := Nat.ofDigits_digits 10 b

theorem intChars_nonneg (n : Int) (h : 0 ≤ n) : intChars n = natChars n.toNat := by
  unfold intChars
  rw [if_neg (not_lt.mpr h)]

end Gosw

namespace Gosw

/-- Unique decomposition of a string as a digit run followed by a
non-digit-headed tail. -/
theorem digit_runs_split :
    ∀ (d1 t1 d2 t2 : List Char),
      (∀ c ∈ d1, c.isDigit = true) → (∀ c ∈ d2, c.isDigit = true) →
      (∀ c, t1.head? = some c → c.isDigit = false) →
      (∀ c, t2.head? = some c → c.isDigit = false) →
      d1 ++ t1 = d2 ++ t2 → d1 = d2 ∧ t1 = t2 := by
  intro d1
  induction d1 with
  | nil =>
    intro t1 d2 t2 h1 h2 ht1 ht2 heq
    cases d2 with
    | nil => simpa using heq
    | cons b bs =>
      exfalso
      simp only [List.nil_append, List.cons_append] at heq
      have hb1 : b.isDigit = false := ht1 b (by rw [heq]; rfl)
      have hb2 : b.isDigit = true := h2 b (List.mem_cons_self b bs)
      rw [hb2] at hb1
      cases hb1
  | cons a as ih =>
    intro t1 d2 t2 h1 h2 ht1 ht2 heq
    cases d2 with
    | nil =>
      exfalso
      simp only [List.cons_append, List.nil_append] at heq
      have ha1 : a.isDigit = false := ht2 a (by rw [← heq]; rfl)
      have ha2 : a.isDigit = true := h1 a (List.mem_cons_self a as)
      rw [ha2] at ha1
      cases ha1
    | cons b bs =>
      simp only [List.cons_append, List.cons.injEq] at heq
      obtain ⟨hab, hrest⟩ := heq
      obtain ⟨e1, e2⟩ := ih t1 bs t2
        (fun c hc => h1 c (List.mem_cons_of_mem a hc))
        (fun c hc => h2 c (List.mem_cons_of_mem b hc)) ht1 ht2 hrest
      exact ⟨by rw [hab, e1], e2⟩

/-- What the parser can produce: the Head sentinel value, or a version
with major 1, non-negative numeric fields, release 0 for Stable and
patch 0 for Beta/RC. -/
def parsedInv (x : Version) : Prop :=
  (x.type = .Head → x = ⟨.Head, 0, 0, 0, 0⟩) ∧
  (x.type ≠ .Head → x.major = 1 ∧ 0 ≤ x.minor ∧ 0 ≤ x.patch ∧ 0 ≤ x.release) ∧
  (x.type = .Stable → x.release = 0) ∧
  ((x.type = .Beta ∨ x.type = .RC) → x.patch = 0)

theorem parseCore_inv (cs : List Char) (x : Version) (h : parseCore cs = some x) :
    parsedInv x := by
  unfold parseCore at h
  split at h
  · split at h
    · cases h
    · split at h
      · injection h with h'
        subst h'
        refine ⟨(by intro hh; cases hh), fun _ => ⟨rfl, ?_, ?_, ?_⟩, fun _ => rfl, (by intro hh; rcases hh with hh | hh <;> cases hh)⟩
        · exact Int.natCast_nonneg _
        · exact le_refl 0
        · exact le_refl 0
      · split at h
        · cases h
        · split at h
          · injection h with h'
            subst h'
            refine ⟨(by intro hh; cases hh), fun _ => ⟨rfl, ?_, ?_, ?_⟩, fun _ => rfl, (by intro hh; rcases hh with hh | hh <;> cases hh)⟩
            · exact Int.natCast_nonneg _
            · exact Int.natCast_nonneg _
            · exact le_refl 0
          · cases h
      · split at h
        · cases h
        · split at h
          · injection h with h'
            subst h'
            refine ⟨(by intro hh; cases hh), fun _ => ⟨rfl, ?_, ?_, ?_⟩, (by intro hh; cases hh), fun _ => rfl⟩
            · exact Int.natCast_nonneg _
            · exact le_refl 0
            · exact Int.natCast_nonneg _
          · cases h
      · split at h
        · cases h
        · split at h
          · injection h with h'
            subst h'
            refine ⟨(by intro hh; cases hh), fun _ => ⟨rfl, ?_, ?_, ?_⟩, (by intro hh; cases hh), fun _ => rfl⟩
            · exact Int.natCast_nonneg _
            · exact le_refl 0
            · exact Int.natCast_nonneg _
          · cases h
      · cases h
  · cases h

theorem parseVersion_inv (s : String) (x : Version) (h : parseVersion s = some x) :
    parsedInv x := by
  unfold parseVersion at h
  split at h
  · injection h with h'
    subst h'
    exact ⟨fun _ => rfl, (by intro hh; cases hh rfl), (by intro hh; cases hh), (by intro hh; rcases hh with hh | hh <;> cases hh)⟩
  · exact parseCore_inv _ x h

end Gosw

namespace Gosw

/-- Everything of a non-Head canonical string after `"1."` and the minor
digits. -/
def versionTail (x : Version) : List Char :=
  match x.type with
  | .Stable => if x.patch > 0 then '.' :: intChars x.patch else []
  | .Beta => 'b' :: 'e' :: 't' :: 'a' :: intChars x.release
  | .RC => 'r' :: 'c' :: intChars x.release
  | .Head => []

theorem versionChars_shape (x : Version) (hxh : x.type ≠ .Head) (hmaj : x.major = 1)
    (hmin : 0 ≤ x.minor) :
    versionChars x = '1' :: '.' :: (natChars x.minor.toNat ++ versionTail x) := by
  have h1 : intChars 1 = ['1'] := by decide
  obtain ⟨tx, mx, nx, px, rx⟩ := x
  have hmaj2 : mx = 1 := hmaj
  have hmin2 : (0 : Int) ≤ nx := hmin
  subst hmaj2
  cases tx with
  | Head => exact absurd rfl hxh
  | Stable =>
    simp only [versionChars, versionTail]
    rw [h1, intChars_nonneg nx hmin2]
    split <;> simp
  | Beta =>
    simp only [versionChars, versionTail]
    rw [h1, intChars_nonneg nx hmin2]
    simp
  | RC =>
    simp only [versionChars, versionTail]
    rw [h1, intChars_nonneg nx hmin2]
    simp

theorem versionTail_head (x : Version) :
    ∀ c, (versionTail x).head? = some c → c.isDigit = false := by
  obtain ⟨tx, mx, nx, px, rx⟩ := x
  cases tx with
  | Head => intro c hc; cases hc
  | Stable =>
    intro c hc
    simp only [versionTail] at hc
    split at hc
    · injection hc with hc2
      rw [← hc2]
      decide
    · cases hc
  | Beta =>
    intro c hc
    simp only [versionTail] at hc
    injection hc with hc2
    rw [← hc2]
    decide
  | RC =>
    intro c hc
    simp only [versionTail] at hc
    injection hc with hc2
    rw [← hc2]
    decide

theorem version_eq_of_vkey (x y : Version) (hx : parsedInv x) (hy : parsedInv y)
    (h : vkey x = vkey y) : x = y := by
  by_cases hxh : x.type = VersionType.Head <;> by_cases hyh : y.type = VersionType.Head
  · rw [hx.1 hxh, hy.1 hyh]
  · exfalso
    unfold vkey at h
    rw [if_pos hxh, if_neg hyh] at h
    simp [Prod.mk.injEq] at h
  · exfalso
    unfold vkey at h
    rw [if_neg hxh, if_pos hyh] at h
    simp [Prod.mk.injEq] at h
  · unfold vkey at h
    rw [if_neg hxh, if_neg hyh] at h
    simp only [Prod.mk.injEq] at h
    obtain ⟨_, hmaj, hmin, hrank, htail⟩ := h
    obtain ⟨tx, mx, nx, px, rx⟩ := x
    obtain ⟨ty, my, ny, py, ry⟩ := y
    simp only at hxh hyh hmaj hmin hrank htail
    cases tx <;> cases ty <;>
      simp_all [parsedInv, stabilityRank, trailingNum] <;> omega

end Gosw

namespace Gosw

theorem intChars_inj_nonneg (a b : Int) (ha : 0 ≤ a) (hb : 0 ≤ b)
    (h : intChars a = intChars b) : a = b := by
  rw [intChars_nonneg a ha, intChars_nonneg b hb] at h
  have := natChars_inj _ _ h
  omega

theorem version_eq_of_string (x y : Version) (hx : parsedInv x) (hy : parsedInv y)
    (h : versionString x = versionString y) : x = y := by
  have hd : versionChars x = versionChars y := congrArg String.data h
  by_cases hxh : x.type = VersionType.Head <;> by_cases hyh : y.type = VersionType.Head
  · rw [hx.1 hxh, hy.1 hyh]
  · exfalso
    obtain ⟨hmaj, hmin, _, _⟩ := hy.2.1 hyh
    rw [hx.1 hxh, versionChars_shape y hyh hmaj hmin] at hd
    rw [show versionChars ⟨.Head, 0, 0, 0, 0⟩ = 'g' :: 'o' :: '-' :: 'h' :: 'e' :: 'a' :: 'd' :: [] from rfl] at hd
    injection hd with h1 _
    exact absurd h1 (by decide)
  · exfalso
    obtain ⟨hmaj, hmin, _, _⟩ := hx.2.1 hxh
    rw [hy.1 hyh, versionChars_shape x hxh hmaj hmin] at hd
    rw [show versionChars ⟨.Head, 0, 0, 0, 0⟩ = 'g' :: 'o' :: '-' :: 'h' :: 'e' :: 'a' :: 'd' :: [] from rfl] at hd
    injection hd with h1 _
    exact absurd h1 (by decide)
  · obtain ⟨hmajx, hminx, hpatx, hrelx⟩ := hx.2.1 hxh
    obtain ⟨hmajy, hminy, hpaty, hrely⟩ := hy.2.1 hyh
    rw [versionChars_shape x hxh hmajx hminx, versionChars_shape y hyh hmajy hminy] at hd
    injection hd with e1 hd1
    injection hd1 with e2 hd2
    obtain ⟨hmins, htails⟩ := digit_runs_split _ _ _ _
      (natChars_digits _) (natChars_digits _) (versionTail_head x) (versionTail_head y) hd2
    have hminxy : x.minor = y.minor := by
      have := natChars_inj _ _ hmins
      omega
    have hrx0 := hx.2.2.1
    have hry0 := hy.2.2.1
    have hpx0 := hx.2.2.2
    have hpy0 := hy.2.2.2
    obtain ⟨tx, mx, nx, px, rx⟩ := x
    obtain ⟨ty, my, ny, py, ry⟩ := y
    simp only at hmajx hminx hpatx hrelx hmajy hminy hpaty hrely hminxy hxh hyh
    cases tx <;> cases ty
    · -- Stable, Stable
      simp only [versionTail] at htails
      have hr1 : rx = 0 := hrx0 rfl
      have hr2 : ry = 0 := hry0 rfl
      by_cases hpx : px > 0 <;> by_cases hpy : py > 0
      · rw [if_pos hpx, if_pos hpy] at htails
        injection htails with _ ht2
        have : px = py := intChars_inj_nonneg px py hpatx hpaty ht2
        simp_all
      · rw [if_pos hpx, if_neg hpy] at htails
        simp at htails
      · rw [if_neg hpx, if_pos hpy] at htails
        simp at htails
      · have hp1 : px = 0 := by omega
        have hp2 : py = 0 := by omega
        simp_all
    · -- Stable, Beta
      simp only [versionTail] at htails
      split at htails <;> simp at htails
    · -- Stable, RC
      simp only [versionTail] at htails
      split at htails <;> simp at htails
    · -- Stable, Head
      exact absurd rfl hyh
    · -- Beta, Stable
      simp only [versionTail] at htails
      split at htails <;> simp at htails
    · -- Beta, Beta
      simp only [versionTail] at htails
      injection htails with _ ht1
      injection ht1 with _ ht2
      injection ht2 with _ ht3
      injection ht3 with _ ht4
      have hr : rx = ry := intChars_inj_nonneg rx ry hrelx hrely ht4
      have hp1 : px = 0 := hpx0 (Or.inl rfl)
      have hp2 : py = 0 := hpy0 (Or.inl rfl)
      simp_all
    · -- Beta, RC
      simp only [versionTail] at htails
      simp at htails
    · -- Beta, Head
      exact absurd rfl hyh
    · -- RC, Stable
      simp only [versionTail] at htails
      split at htails <;> simp at htails
    · -- RC, Beta
      simp only [versionTail] at htails
      simp at htails
    · -- RC, RC
      simp only [versionTail] at htails
      injection htails with _ ht1
      injection ht1 with _ ht2
      have hr : rx = ry := intChars_inj_nonneg rx ry hrelx hrely ht2
      have hp1 : px = 0 := hpx0 (Or.inr rfl)
      have hp2 : py = 0 := hpy0 (Or.inr rfl)
      simp_all
    · -- RC, Head
      exact absurd rfl hyh
    · -- Head, Stable
      exact absurd rfl hxh
    · -- Head, Beta
      exact absurd rfl hxh
    · -- Head, RC
      exact absurd rfl hxh
    · -- Head, Head
      exact absurd rfl hxh

end Gosw

namespace Gosw

/-- C5: `CompareVersion` is a consistent strict total-order comparator —
reflexively zero, antisymmetric (`Compare(y,x) = -Compare(x,y)`), valued
in {-1, 0, 1}, transitive both in its strict and its zero (equivalence)
part — and for all Versions produced by the parser, `EqualVersion(x, y)`
holds iff `String(x) = String(y)`. -/
theorem claim_C5_order_and_string_key :
    (∀ x, compareVersion x x = 0) ∧
    (∀ x y, compareVersion y x = -(compareVersion x y)) ∧
    (∀ x y, compareVersion x y = -1 ∨ compareVersion x y = 0 ∨ compareVersion x y = 1) ∧
    (∀ x y z, compareVersion x y < 0 → compareVersion y z < 0 → compareVersion x z < 0) ∧
    (∀ x y z, compareVersion x y = 0 → compareVersion y z = 0 → compareVersion x z = 0) ∧
    (∀ x y, (∃ s, parseVersion s = some x) → (∃ t, parseVersion t = some y) →
      (equalVersion x y = true ↔ versionString x = versionString y)) := by
  refine ⟨compareVersion_self, compareVersion_flip, compareVersion_vals,
    compareVersion_trans_lt, compareVersion_trans_eq, ?_⟩
  rintro x y ⟨s, hs⟩ ⟨t, ht⟩
  have hx := parseVersion_inv s x hs
  have hy := parseVersion_inv t y ht
  constructor
  · intro he
    have h0 : compareVersion x y = 0 := by simpa [equalVersion] using he
    rw [version_eq_of_vkey x y hx hy ((compareVersion_eq_zero x y).mp h0)]
  · intro hstr
    rw [version_eq_of_string x y hx hy hstr]
    simp [equalVersion, compareVersion_self]

theorem claim_C5_witness :
    compareVersion ⟨.Beta, 1, 16, 0, 1⟩ ⟨.Stable, 1, 16, 0, 0⟩ < 0 ∧
    compareVersion v116 v116 = 0 ∧
    (equalVersion v116 v116 = true ↔ versionString v116 = versionString v116) :=
  ⟨claim_C5_order_and_string_key.2.2.2.1 ⟨.Beta, 1, 16, 0, 1⟩ ⟨.RC, 1, 16, 0, 1⟩
      ⟨.Stable, 1, 16, 0, 0⟩ (by decide) (by decide),
   claim_C5_order_and_string_key.2.2.2.2.1 v116 v116 v116 (by decide) (by decide),
   claim_C5_order_and_string_key.2.2.2.2.2 v116 v116
     ⟨"1.16", by decide⟩ ⟨"go1.16", by decide⟩⟩

end Gosw
